import Mathlib

/-!
Shallow embedding of the `cachers` crate: the clock (second-chance) evictor
from `src/eviction.rs` and the segment holding the key-value store from
`src/segment.rs`, together with the `CacheThrough` facade from `src/lib.rs`.

The Rust code guards its state with `RwLock`s; every operation takes the
relevant lock for its whole body, so the sequential embedding models each
operation as a pure state transformer.  `HashMap` is modelled as an
association list with pairwise distinct keys (insert replaces in place or
appends, remove erases the entry).  Rust panics (indexing out of bounds,
remainder by zero) are modelled by returning `none` from the operation.

The `CacheEntry::Lock` variant of `segment.rs` is never constructed by any
code path of the crate (`SoftLock` values are never inserted into the map),
so cache entries are modelled as the `CacheEntry::Value` payload: a value
together with its owning slot index.
-/

namespace Cachers

/-- Association-list lookup: first binding of the key, as `HashMap::get`. -/
def alookup {α β : Type} [DecidableEq α] : List (α × β) → α → Option β
  | [], _ => none
  | (a', b) :: rest, a => if a' = a then some b else alookup rest a

/-- Association-list removal of the (first) binding of the key, as `HashMap::remove`. -/
def aerase {α β : Type} [DecidableEq α] : List (α × β) → α → List (α × β)
  | [], _ => []
  | (a', b) :: rest, a => if a' = a then rest else (a', b) :: aerase rest a

/-- Association-list insert: replace the existing binding in place or append,
as `HashMap::insert`. -/
def ainsert {α β : Type} [DecidableEq α] : List (α × β) → α → β → List (α × β)
  | [], a, b => [(a, b)]
  | (a', b') :: rest, a, b => if a' = a then (a, b) :: rest else (a', b') :: ainsert rest a b

/-- The keys of an association list. -/
def akeys {α β : Type} (m : List (α × β)) : List α := m.map Prod.fst

/-- State of `ClockEvictor`/`Inner` from `src/eviction.rs`: fixed `capacity`,
the clock hand `current_pos`, the touched-bit vector `clock` and the
slot-to-key `mapping`. -/
structure ClockEvictor (K : Type) where
  capacity : Nat
  current_pos : Nat
  clock : List Bool
  mapping : List (Nat × K)
deriving DecidableEq, Repr

/-- `ClockEvictor::new(capacity)`. -/
def ClockEvictor.new (K : Type) (capacity : Nat) : ClockEvictor K :=
  { capacity := capacity
    current_pos := 0
    clock := List.replicate capacity false
    mapping := [] }

/-- `Inner::touch`: `clock[index] = true`; out-of-bounds indexing panics. -/
def ClockEvictor.touch {K : Type} (e : ClockEvictor K) (index : Nat) :
    Option (ClockEvictor K) :=
  if index < e.clock.length then some { e with clock := e.clock.set index true } else none

/-- `Iterator::position(flip_and_match)` over a mutable slice of touched bits:
returns the position of the first untouched bit and the slice after the scan,
every visited bit having been set to `false`. -/
def scanClear : List Bool → Option Nat × List Bool
  | [] => (none, [])
  | b :: rest =>
    if b then
      let r := scanClear rest
      (r.1.map (· + 1), false :: r.2)
    else
      (some 0, false :: rest)

/-- The scan part of `Inner::victim`: first over `clock[current_pos..]`, then
over `clock[..current_pos]`, defaulting to `current_pos`; returns the chosen
`offset` together with the updated bit vector. -/
def victimScan (h : Nat) (clock : List Bool) : Nat × List Bool :=
  let s1 := scanClear (clock.drop h)
  match s1.1 with
  | some j => (j, clock.take h ++ s1.2)
  | none =>
    let s0 := scanClear (clock.take h)
    match s0.1 with
    | some i => (i, s0.2 ++ s1.2)
    | none => (h, s0.2 ++ s1.2)

/-- `if index >= capacity { index %= capacity }`: the remainder panics when
`capacity = 0`. -/
def fixIndex (capacity index : Nat) : Option Nat :=
  if index ≥ capacity then
    if capacity = 0 then none else some (index % capacity)
  else some index

/-- `Inner::victim`: scan, normalize the index, advance the hand past the
victim and take the victim's key out of the mapping. -/
def ClockEvictor.victim {K : Type} (e : ClockEvictor K) :
    Option ((Nat × Option K) × ClockEvictor K) :=
  let s := victimScan e.current_pos e.clock
  match fixIndex e.capacity (e.current_pos + s.1) with
  | none => none
  | some index =>
    some ((index, alookup e.mapping index),
      { e with
        current_pos := index + 1
        clock := s.2
        mapping := aerase e.mapping index })

/-- `ClockEvictor::add`: assign the next unused slot while below capacity,
otherwise run victim selection; then install the key and touch its slot. -/
def ClockEvictor.add {K : Type} [DecidableEq K] (e : ClockEvictor K) (key : K) :
    Option ((Nat × Option K) × ClockEvictor K) :=
  let step : Option ((Nat × Option K) × ClockEvictor K) :=
    if e.mapping.length < e.capacity then some ((e.mapping.length, none), e) else e.victim
  match step with
  | none => none
  | some ((index, vic), e1) =>
    match ClockEvictor.touch { e1 with mapping := ainsert e1.mapping index key } index with
    | none => none
    | some e2 => some ((index, vic), e2)

/-- State of `Segment`/`Inner` from `src/segment.rs`: the key-value `data`
map (each entry holding its value and owning slot index) and the evictor. -/
structure Segment (K V : Type) where
  data : List (K × V × Nat)
  evictor : ClockEvictor K
deriving DecidableEq, Repr

/-- `Segment::new(capacity)`. -/
def Segment.new (K V : Type) (capacity : Nat) : Segment K V :=
  { data := [], evictor := ClockEvictor.new K capacity }

/-- `Segment::get`: on a hit touch the entry's slot and return the value; on a
miss change nothing. -/
def Segment.get {K V : Type} [DecidableEq K] (s : Segment K V) (key : K) :
    Option (Option V × Segment K V) :=
  match alookup s.data key with
  | some (v, index) =>
    match s.evictor.touch index with
    | none => none
    | some ev => some (some v, { s with evictor := ev })
  | none => some (none, s)

/-- Insert the new entry, then remove the evicted key (in that order, as in
the source where `entry.insert` precedes `self.data.remove(&key_evicted)`). -/
def insertThenEvict {K V : Type} [DecidableEq K] (data : List (K × V × Nat))
    (key : K) (value : V) (index : Nat) (vic : Option K) : List (K × V × Nat) :=
  let data1 := ainsert data key (value, index)
  match vic with
  | some kev => aerase data1 kev
  | none => data1

/-- `Inner::get_or_populate`: hit touches and returns without invoking the
function; miss invokes it, and on `Some` allocates a slot (evicting if the
evictor reports a victim), inserts and returns the value. -/
def Segment.get_or_populate {K V : Type} [DecidableEq K] (s : Segment K V) (key : K)
    (populating_fn : K → Option V) : Option (Option V × Segment K V) :=
  match alookup s.data key with
  | some (v, index) =>
    match s.evictor.touch index with
    | none => none
    | some ev => some (some v, { s with evictor := ev })
  | none =>
    match populating_fn key with
    | none => some (none, s)
    | some value =>
      match s.evictor.add key with
      | none => none
      | some ((index, vic), ev) =>
        some (some value, { data := insertThenEvict s.data key value index vic, evictor := ev })

/-- `Inner::update`: present and `Some` overwrites in place and touches;
present and `None` removes the entry; absent and `Some` inserts like a
population; absent and `None` is a no-op. -/
def Segment.update {K V : Type} [DecidableEq K] (s : Segment K V) (key : K)
    (updating_fn : K → Option V → Option V) : Option (Option V × Segment K V) :=
  match alookup s.data key with
  | some (v, index) =>
    match updating_fn key (some v) with
    | some value =>
      match s.evictor.touch index with
      | none => none
      | some ev =>
        some (some value, { data := ainsert s.data key (value, index), evictor := ev })
    | none => some (none, { s with data := aerase s.data key })
  | none =>
    match updating_fn key none with
    | some value =>
      match s.evictor.add key with
      | none => none
      | some ((index, vic), ev) =>
        some (some value, { data := insertThenEvict s.data key value index vic, evictor := ev })
    | none => some (none, s)

/-- `CacheThrough::get`: optimistic read path, then `get_or_populate` under
exclusive access on a miss. -/
def CacheThrough.get {K V : Type} [DecidableEq K] (s : Segment K V) (key : K)
    (populating_fn : K → Option V) : Option (Option V × Segment K V) :=
  match Segment.get s key with
  | none => none
  | some (some v, s1) => some (some v, s1)
  | some (none, s1) => Segment.get_or_populate s1 key populating_fn

/-- `CacheThrough::remove`: `update(key, |_, _| None)`. -/
def CacheThrough.remove {K V : Type} [DecidableEq K] (s : Segment K V) (key : K) :
    Option (Option V × Segment K V) :=
  Segment.update s key (fun _ _ => none)

/-- One public cache operation. -/
inductive CacheOp (K V : Type) where
  | read (key : K)
  | get (key : K) (populating_fn : K → Option V)
  | populate (key : K) (populating_fn : K → Option V)
  | update (key : K) (updating_fn : K → Option V → Option V)
  | remove (key : K)

/-- Run one operation against the segment. -/
def runOp {K V : Type} [DecidableEq K] (s : Segment K V) :
    CacheOp K V → Option (Option V × Segment K V)
  | CacheOp.read key => Segment.get s key
  | CacheOp.get key f => CacheThrough.get s key f
  | CacheOp.populate key f => Segment.get_or_populate s key f
  | CacheOp.update key f => Segment.update s key f
  | CacheOp.remove key => CacheThrough.remove s key

/-- Run a sequence of operations, stopping on a panic. -/
def runOps {K V : Type} [DecidableEq K] (s : Segment K V) :
    List (CacheOp K V) → Option (Segment K V)
  | [] => some s
  | op :: rest =>
    match runOp s op with
    | none => none
    | some (_, s1) => runOps s1 rest

/-! ### Specification-side definitions

These follow the words of the specification (victim selection as described in
the "second-chance/clock" paragraph), to be compared with the code's
behaviour. -/

/-- Index of the first untouched (`false`) bit of a list, if any. -/
def firstFalse : List Bool → Option Nat
  | [] => none
  | b :: rest => if b then (firstFalse rest).map (· + 1) else some 0

/-- The victim slot according to the specification's words: scan slots in
circular order starting at the hand; the first untouched slot visited is the
victim; if a full circuit finds none, the slot at the original hand position
is the victim. -/
def specVictim (h : Nat) (clock : List Bool) : Nat :=
  match firstFalse (clock.drop h) with
  | some j => h + j
  | none =>
    match firstFalse (clock.take h) with
    | some i => i
    | none => h

/-- The victim slot the code actually chooses: the scan offset is added to the
hand even when the match came from the wrapped-around prefix scan, so a wrapped
find at absolute index `i` yields victim `(h + i) % capacity`, and a fruitless
full circuit yields `(2 * h) % capacity`. -/
def codeVictimIndex (capacity h : Nat) (clock : List Bool) : Nat :=
  match firstFalse (clock.drop h) with
  | some j => h + j
  | none =>
    match firstFalse (clock.take h) with
    | some i => (h + i) % capacity
    | none => (2 * h) % capacity

/-- A scan's effect on the bits it visits: everything up to and including the
stopping point is cleared, the rest is unchanged. -/
def scanCleared (l : List Bool) : List Bool :=
  match firstFalse l with
  | some j => List.replicate (j + 1) false ++ l.drop (j + 1)
  | none => List.replicate l.length false

/-- The touched-bit vector after victim selection: the suffix from the hand is
scanned first, then (on a miss there) the prefix before the hand. -/
def clearedClock (h : Nat) (clock : List Bool) : List Bool :=
  match firstFalse (clock.drop h) with
  | some _ => clock.take h ++ scanCleared (clock.drop h)
  | none => scanCleared (clock.take h) ++ scanCleared (clock.drop h)

/-! ### Invariants -/

/-- Invariant of the evictor state: the bit vector has length `capacity`, the
hand never passes `capacity`, the slot-to-key mapping has pairwise distinct
slots all below `capacity`, and the occupied slots are exactly
`[0, mapping.length)`. -/
def EvInv {K : Type} (e : ClockEvictor K) : Prop :=
  e.clock.length = e.capacity ∧
  e.current_pos ≤ e.capacity ∧
  (akeys e.mapping).Nodup ∧
  (∀ p ∈ e.mapping, p.1 < e.capacity) ∧
  (∀ i, i < e.capacity → ((alookup e.mapping i).isSome ↔ i < e.mapping.length))

/-- Invariant of the segment state: the evictor invariant, pairwise distinct
resident keys, and every resident entry's slot is below capacity and mapped
back to that entry's key by the evictor. -/
def SegInv {K V : Type} [DecidableEq K] (s : Segment K V) : Prop :=
  EvInv s.evictor ∧
  (akeys s.data).Nodup ∧
  (∀ p ∈ s.data, p.2.2 < s.evictor.capacity ∧ alookup s.evictor.mapping p.2.2 = some p.1)

instance EvInv.instDecidable {K : Type} [DecidableEq K] (e : ClockEvictor K) :
    Decidable (EvInv e) := by
  unfold EvInv
  infer_instance

instance SegInv.instDecidable {K V : Type} [DecidableEq K] [DecidableEq V] (s : Segment K V) :
    Decidable (SegInv s) := by
  unfold SegInv
  infer_instance

/-! ### Fill states

The segment state after populating a fresh cache with distinct keys, used for
the capacity/eviction-count property. -/

/-- `List` enumeration starting at `n`. -/
def withIdx {α : Type} : Nat → List α → List (Nat × α)
  | _, [] => []
  | n, a :: rest => (n, a) :: withIdx (n + 1) rest

/-- The data map after populating the keys `ks` in order into a fresh segment:
key `ks[i]` holds value `g ks[i]` at slot `i`. -/
def dataOf {K V : Type} (ks : List K) (g : K → V) : List (K × V × Nat) :=
  (withIdx 0 ks).map (fun p => (p.2, g p.2, p.1))

/-- The whole segment state after populating the distinct keys `ks` (with
`ks.length ≤ C`) into a fresh segment of capacity `C`. -/
def fillSeg {K V : Type} (C : Nat) (ks : List K) (g : K → V) : Segment K V :=
  { data := dataOf ks g
    evictor :=
      { capacity := C
        current_pos := 0
        clock := List.replicate ks.length true ++ List.replicate (C - ks.length) false
        mapping := withIdx 0 ks } }

/-- An always-populating get of `key`, with values produced by `g`. -/
def popGet {K V : Type} (g : K → V) (key : K) : CacheOp K V :=
  CacheOp.get key (fun x => some (g x))

/-! ### Concrete states for the counterexample runs -/

/-- The identity populating function on `Nat` keys/values. -/
def pf : Nat → Option Nat := fun k => some k

/-- The updating function that removes an entry. -/
def delFn : Nat → Option Nat → Option Nat := fun _ _ => none

/-- Evictor of capacity 2 after `add 1; add 2; add 3; touch 1`: both slots
occupied and touched, hand at 1 (slot 0 holds key 3, slot 1 holds key 2). -/
def c1ev : ClockEvictor Nat :=
  { capacity := 2, current_pos := 1, clock := [true, true], mapping := [(1, 2), (0, 3)] }

/-- Capacity-4 segment after populating 1,2,3,4, reading 1 again and
populating 5: key 1 was evicted. -/
def c2seg : Segment Nat Nat :=
  { data := [(2, 2, 1), (3, 3, 2), (4, 4, 3), (5, 5, 0)]
    evictor :=
      { capacity := 4
        current_pos := 1
        clock := [true, false, false, false]
        mapping := [(1, 2), (2, 3), (3, 4), (0, 5)] } }

/-- Capacity-3 segment in which resident key 5 occupies slot 2 while the
evictor's mapping still holds key 5 at slot 1 as well. -/
def c4seg : Segment Nat Nat :=
  { data := [(4, 4, 0), (5, 5, 2)]
    evictor :=
      { capacity := 3
        current_pos := 3
        clock := [true, true, true]
        mapping := [(0, 4), (1, 5), (2, 5)] } }

/-- Capacity-2 segment after populating 1 and 2 and removing 2: one resident
entry, but the evictor still regards both slots as occupied. -/
def c5a : Segment Nat Nat :=
  { data := [(1, 1, 0)]
    evictor :=
      { capacity := 2, current_pos := 0, clock := [true, true], mapping := [(0, 1), (1, 2)] } }

/-- The state after populating 3 from `c5a`: resident key 1 was evicted even
though the resident count was below capacity. -/
def c5b : Segment Nat Nat :=
  { data := [(3, 3, 0)]
    evictor :=
      { capacity := 2, current_pos := 1, clock := [true, false], mapping := [(1, 2), (0, 3)] } }

/-- The state after populating 1, 2, removing 1 and populating 3: here the
removed key's slot happened to be the victim, so no resident was evicted. -/
def c5c : Segment Nat Nat :=
  { data := [(2, 2, 1), (3, 3, 0)]
    evictor :=
      { capacity := 2, current_pos := 1, clock := [true, false], mapping := [(1, 2), (0, 3)] } }

/-- Capacity-2 segment after populating 1 and 2 and removing 1: the evictor's
mapping still holds key 1 at slot 0. -/
def c7a : Segment Nat Nat :=
  { data := [(2, 2, 1)]
    evictor :=
      { capacity := 2, current_pos := 0, clock := [true, true], mapping := [(0, 1), (1, 2)] } }

/-- The state after re-populating key 1 from `c7a`: the evictor reported key 1
itself as the victim, so the fresh entry was removed right after insertion. -/
def c7b : Segment Nat Nat :=
  { data := [(2, 2, 1)]
    evictor :=
      { capacity := 2, current_pos := 1, clock := [true, false], mapping := [(1, 2), (0, 1)] } }

/-- Capacity-2 segment holding only key 1, used to exercise the update
contract on a present key. -/
def c8seg : Segment Nat Nat :=
  { data := [(1, 1, 0)]
    evictor :=
      { capacity := 2, current_pos := 0, clock := [true, false], mapping := [(0, 1)] } }

/-- Capacity-1 segment holding key 7 at slot 0. -/
def c4w : Segment Nat Nat :=
  { data := [(7, 7, 0)]
    evictor :=
      { capacity := 1, current_pos := 0, clock := [true], mapping := [(0, 7)] } }

/-! ### Association-list lemmas -/

theorem alookup_ainsert_self {α β : Type} [DecidableEq α] (m : List (α × β)) (a : α) (b : β) :
    alookup (ainsert m a b) a = some b := by
  induction m with
  | nil => simp [ainsert, alookup]
  | cons p rest ih =>
    obtain ⟨a', b'⟩ := p
    by_cases h : a' = a
    · simp [ainsert, alookup, h]
    · simp [ainsert, alookup, h, ih]

theorem alookup_ainsert_ne {α β : Type} [DecidableEq α] (m : List (α × β)) (a x : α) (b : β)
    (hx : x ≠ a) : alookup (ainsert m a b) x = alookup m x := by
  induction m with
  | nil => simp [ainsert, alookup, Ne.symm hx]
  | cons p rest ih =>
    obtain ⟨a', b'⟩ := p
    by_cases h : a' = a
    · subst h
      simp [ainsert, alookup, Ne.symm hx]
    · by_cases h2 : a' = x
      · subst h2
        simp [ainsert, alookup, hx]
      · simp [ainsert, alookup, h, h2, ih]

theorem alookup_aerase_ne {α β : Type} [DecidableEq α] (m : List (α × β)) (a x : α)
    (hx : x ≠ a) : alookup (aerase m a) x = alookup m x := by
  induction m with
  | nil => simp [aerase]
  | cons p rest ih =>
    obtain ⟨a', b'⟩ := p
    by_cases h : a' = a
    · subst h
      simp [aerase, alookup, Ne.symm hx]
    · by_cases h2 : a' = x
      · subst h2
        simp [aerase, alookup, hx]
      · simp [aerase, alookup, h, h2, ih]

theorem mem_of_alookup_eq_some {α β : Type} [DecidableEq α] {m : List (α × β)} {a : α} {b : β}
    (h : alookup m a = some b) : (a, b) ∈ m := by
  induction m with
  | nil => simp [alookup] at h
  | cons p rest ih =>
    obtain ⟨a', b'⟩ := p
    by_cases hh : a' = a
    · subst hh
      simp [alookup] at h
      simp [h]
    · simp [alookup, hh] at h
      exact List.mem_cons_of_mem _ (ih h)

theorem akeys_cons {α β : Type} (p : α × β) (m : List (α × β)) :
    akeys (p :: m) = p.1 :: akeys m := rfl

theorem mem_akeys_of_mem {α β : Type} {m : List (α × β)} {p : α × β} (h : p ∈ m) :
    p.1 ∈ akeys m := List.mem_map_of_mem Prod.fst h

theorem exists_of_mem_akeys {α β : Type} {m : List (α × β)} {x : α} (h : x ∈ akeys m) :
    ∃ b, (x, b) ∈ m := by
  rcases List.mem_map.mp h with ⟨p, hp, rfl⟩
  exact ⟨p.2, hp⟩

theorem alookup_eq_none_iff {α β : Type} [DecidableEq α] (m : List (α × β)) (a : α) :
    alookup m a = none ↔ a ∉ akeys m := by
  induction m with
  | nil => simp [alookup, akeys]
  | cons p rest ih =>
    obtain ⟨a', b'⟩ := p
    rw [akeys_cons]
    by_cases h : a' = a
    · subst h
      simp [alookup]
    · simp [alookup, h, ih, Ne.symm h]

theorem alookup_isSome_iff {α β : Type} [DecidableEq α] (m : List (α × β)) (a : α) :
    (alookup m a).isSome ↔ a ∈ akeys m := by
  rcases hm : alookup m a with _ | b
  · simp [(alookup_eq_none_iff m a).mp hm]
  · simp
    exact mem_akeys_of_mem (mem_of_alookup_eq_some hm)

theorem alookup_eq_some_of_mem {α β : Type} [DecidableEq α] {m : List (α × β)} {a : α} {b : β}
    (hnd : (akeys m).Nodup) (h : (a, b) ∈ m) : alookup m a = some b := by
  induction m with
  | nil => simp at h
  | cons p rest ih =>
    obtain ⟨a', b'⟩ := p
    rw [akeys_cons] at hnd
    rcases List.nodup_cons.mp hnd with ⟨hna, hnd2⟩
    rcases List.mem_cons.mp h with h1 | h1
    · simp at h1
      obtain ⟨rfl, rfl⟩ := h1
      simp [alookup]
    · have ha : a' ≠ a := by
        intro hc
        subst hc
        have hm : (a', b).1 ∈ akeys rest := mem_akeys_of_mem h1
        exact hna hm
      simp [alookup, ha]
      exact ih hnd2 h1

theorem mem_ainsert {α β : Type} [DecidableEq α] {m : List (α × β)} {a : α} {b : β} {p : α × β}
    (h : p ∈ ainsert m a b) : p = (a, b) ∨ p ∈ m := by
  induction m with
  | nil => simp [ainsert] at h; simp [h]
  | cons q rest ih =>
    obtain ⟨a', b'⟩ := q
    by_cases hh : a' = a
    · simp [ainsert, hh] at h
      rcases h with h | h
      · exact Or.inl (by simp [h])
      · exact Or.inr (List.mem_cons_of_mem _ h)
    · simp [ainsert, hh] at h
      rcases h with h | h
      · exact Or.inr (by simp [h])
      · rcases ih h with h1 | h1
        · exact Or.inl h1
        · exact Or.inr (List.mem_cons_of_mem _ h1)

theorem aerase_sublist {α β : Type} [DecidableEq α] (m : List (α × β)) (a : α) :
    List.Sublist (aerase m a) m := by
  induction m with
  | nil => simp [aerase]
  | cons p rest ih =>
    obtain ⟨a', b'⟩ := p
    by_cases h : a' = a
    · simp only [aerase, if_pos h]
      exact List.sublist_cons_self _ _
    · simp only [aerase, if_neg h]
      exact List.Sublist.cons₂ _ ih

theorem mem_of_mem_aerase {α β : Type} [DecidableEq α] {m : List (α × β)} {a : α} {p : α × β}
    (h : p ∈ aerase m a) : p ∈ m :=
  (aerase_sublist m a).subset h

theorem akeys_nodup_aerase {α β : Type} [DecidableEq α] {m : List (α × β)} (a : α)
    (hnd : (akeys m).Nodup) : (akeys (aerase m a)).Nodup :=
  List.Nodup.sublist (List.Sublist.map Prod.fst (aerase_sublist m a)) hnd

theorem mem_akeys_ainsert {α β : Type} [DecidableEq α] {m : List (α × β)} {a x : α} {b : β}
    (h : x ∈ akeys (ainsert m a b)) : x = a ∨ x ∈ akeys m := by
  rcases List.mem_map.mp h with ⟨p, hp, hx⟩
  rcases mem_ainsert hp with h1 | h1
  · subst h1
    exact Or.inl hx.symm
  · exact Or.inr (hx ▸ List.mem_map_of_mem Prod.fst h1)

theorem akeys_nodup_ainsert {α β : Type} [DecidableEq α] {m : List (α × β)} (a : α) (b : β)
    (hnd : (akeys m).Nodup) : (akeys (ainsert m a b)).Nodup := by
  induction m with
  | nil => simp [ainsert, akeys]
  | cons p rest ih =>
    obtain ⟨a', b'⟩ := p
    rw [akeys_cons] at hnd
    rcases List.nodup_cons.mp hnd with ⟨hna, hnd2⟩
    by_cases h : a' = a
    · subst h
      have he : ainsert ((a', b') :: rest) a' b = (a', b) :: rest := by simp [ainsert]
      rw [he, akeys_cons]
      exact List.nodup_cons.mpr ⟨hna, hnd2⟩
    · simp only [ainsert, if_neg h]
      rw [akeys_cons]
      refine List.nodup_cons.mpr ⟨?_, ih hnd2⟩
      intro hc
      rcases mem_akeys_ainsert hc with h1 | h1
      · exact h h1
      · exact hna h1

theorem ainsert_of_absent {α β : Type} [DecidableEq α] {m : List (α × β)} {a : α} (b : β)
    (h : alookup m a = none) : ainsert m a b = m ++ [(a, b)] := by
  induction m with
  | nil => simp [ainsert]
  | cons p rest ih =>
    obtain ⟨a', b'⟩ := p
    by_cases hh : a' = a
    · simp [alookup, hh] at h
    · simp [alookup, hh] at h
      simp [ainsert, hh, ih h]

theorem length_ainsert_of_absent {α β : Type} [DecidableEq α] {m : List (α × β)} {a : α} (b : β)
    (h : alookup m a = none) : (ainsert m a b).length = m.length + 1 := by
  rw [ainsert_of_absent b h]
  simp

theorem length_ainsert_of_present {α β : Type} [DecidableEq α] {m : List (α × β)} {a : α}
    {b0 : β} (b : β) (h : alookup m a = some b0) : (ainsert m a b).length = m.length := by
  induction m with
  | nil => simp [alookup] at h
  | cons p rest ih =>
    obtain ⟨a', b'⟩ := p
    by_cases hh : a' = a
    · simp [ainsert, hh]
    · simp [alookup, hh] at h
      simp [ainsert, hh, ih h]

theorem aerase_of_absent {α β : Type} [DecidableEq α] {m : List (α × β)} {a : α}
    (h : alookup m a = none) : aerase m a = m := by
  induction m with
  | nil => simp [aerase]
  | cons p rest ih =>
    obtain ⟨a', b'⟩ := p
    by_cases hh : a' = a
    · simp [alookup, hh] at h
    · simp [alookup, hh] at h
      simp [aerase, hh, ih h]

theorem length_aerase_of_present {α β : Type} [DecidableEq α] {m : List (α × β)} {a : α}
    {b0 : β} (h : alookup m a = some b0) : (aerase m a).length + 1 = m.length := by
  induction m with
  | nil => simp [alookup] at h
  | cons p rest ih =>
    obtain ⟨a', b'⟩ := p
    by_cases hh : a' = a
    · simp [aerase, hh]
    · simp [alookup, hh] at h
      simp [aerase, hh, ih h]

theorem alookup_aerase_self {α β : Type} [DecidableEq α] {m : List (α × β)} (a : α)
    (hnd : (akeys m).Nodup) : alookup (aerase m a) a = none := by
  induction m with
  | nil => simp [aerase, alookup]
  | cons p rest ih =>
    obtain ⟨a', b'⟩ := p
    rw [akeys_cons] at hnd
    rcases List.nodup_cons.mp hnd with ⟨hna, hnd2⟩
    by_cases hh : a' = a
    · subst hh
      have he : aerase ((a', b') :: rest) a' = rest := by simp [aerase]
      rw [he, alookup_eq_none_iff]
      exact hna
    · simp only [aerase, if_neg hh]
      simp [alookup, hh]
      exact ih hnd2

/-! ### Scan and victim-selection lemmas -/

theorem scanClear_fst (l : List Bool) : (scanClear l).1 = firstFalse l := by
  induction l with
  | nil => rfl
  | cons b rest ih =>
    cases b
    · simp [scanClear, firstFalse]
    · simp [scanClear, firstFalse, ih]

theorem scanClear_length (l : List Bool) : (scanClear l).2.length = l.length := by
  induction l with
  | nil => rfl
  | cons b rest ih =>
    cases b
    · simp [scanClear]
    · simp [scanClear, ih]

theorem scanClear_snd (l : List Bool) : (scanClear l).2 = scanCleared l := by
  induction l with
  | nil => rfl
  | cons b rest ih =>
    cases b
    · simp [scanClear, scanCleared, firstFalse]
    · have hL : (scanClear (true :: rest)).2 = false :: (scanClear rest).2 := by
        simp [scanClear]
      rw [hL, ih]
      rcases hf : firstFalse rest with _ | j
      · simp [scanCleared, firstFalse, hf, List.replicate_succ]
      · simp [scanCleared, firstFalse, hf, List.replicate_succ]

theorem scanCleared_length (l : List Bool) : (scanCleared l).length = l.length := by
  rw [← scanClear_snd]
  exact scanClear_length l

theorem firstFalse_lt {l : List Bool} {j : Nat} (h : firstFalse l = some j) : j < l.length := by
  induction l generalizing j with
  | nil => simp [firstFalse] at h
  | cons b rest ih =>
    cases b
    · simp [firstFalse] at h
      simp only [List.length_cons]
      omega
    · simp [firstFalse] at h
      rcases h with ⟨j0, hj0, rfl⟩
      have := ih hj0
      simp only [List.length_cons]
      omega

theorem firstFalse_replicate_true (n : Nat) : firstFalse (List.replicate n true) = none := by
  induction n with
  | zero => rfl
  | succ n ih => simp [List.replicate_succ, firstFalse, ih]

theorem clearedClock_length (h : Nat) (clock : List Bool) :
    (clearedClock h clock).length = clock.length := by
  unfold clearedClock
  rcases firstFalse (clock.drop h) with _ | j
  · simp [scanCleared_length, List.length_take, List.length_drop]
    omega
  · simp [scanCleared_length, List.length_take, List.length_drop]
    omega

theorem scanClear_eq_pair (l : List Bool) : scanClear l = (firstFalse l, scanCleared l) := by
  rw [← scanClear_fst, ← scanClear_snd]

theorem victimScan_snd (h : Nat) (clock : List Bool) :
    (victimScan h clock).2 = clearedClock h clock := by
  simp only [victimScan, clearedClock, scanClear_eq_pair]
  rcases firstFalse (clock.drop h) with _ | j
  · rcases firstFalse (clock.take h) with _ | i <;> simp
  · simp

theorem victimScan_fst (h : Nat) (clock : List Bool) :
    (victimScan h clock).1 =
      (match firstFalse (clock.drop h) with
       | some j => j
       | none =>
         match firstFalse (clock.take h) with
         | some i => i
         | none => h) := by
  simp only [victimScan, scanClear_eq_pair]
  rcases firstFalse (clock.drop h) with _ | j
  · rcases firstFalse (clock.take h) with _ | i <;> simp
  · simp

theorem getD_set_self (l : List Bool) (n : Nat) (a : Bool) (h : n < l.length) :
    (l.set n a).getD n false = a := by
  simp [List.getD_eq_getElem?_getD, List.getElem?_set_self, h]

theorem fixIndex_eq_mod (cap x : Nat) (hcap : 1 ≤ cap) : fixIndex cap x = some (x % cap) := by
  unfold fixIndex
  by_cases hx : x ≥ cap
  · have : cap ≠ 0 := by omega
    simp [hx, this]
  · have : x % cap = x := Nat.mod_eq_of_lt (by omega)
    simp [hx, this]

theorem codeVictimIndex_lt {cap h : Nat} {clock : List Bool} (hlen : clock.length = cap)
    (hcap : 1 ≤ cap) : codeVictimIndex cap h clock < cap := by
  unfold codeVictimIndex
  rcases hf1 : firstFalse (clock.drop h) with _ | j
  · rcases hf0 : firstFalse (clock.take h) with _ | i
    · simp only [hf1, hf0]
      exact Nat.mod_lt _ (by omega)
    · simp only [hf1, hf0]
      exact Nat.mod_lt _ (by omega)
  · simp only [hf1]
    have hj := firstFalse_lt hf1
    rw [List.length_drop] at hj
    omega

theorem victim_eq {K : Type} [DecidableEq K] (e : ClockEvictor K)
    (hlen : e.clock.length = e.capacity) (hcap : 1 ≤ e.capacity) :
    e.victim = some ((codeVictimIndex e.capacity e.current_pos e.clock,
        alookup e.mapping (codeVictimIndex e.capacity e.current_pos e.clock)),
      { e with
        current_pos := codeVictimIndex e.capacity e.current_pos e.clock + 1
        clock := clearedClock e.current_pos e.clock
        mapping := aerase e.mapping (codeVictimIndex e.capacity e.current_pos e.clock) }) := by
  have hfix := fixIndex_eq_mod e.capacity
    (e.current_pos + (victimScan e.current_pos e.clock).1) hcap
  have hidx : (e.current_pos + (victimScan e.current_pos e.clock).1) % e.capacity =
      codeVictimIndex e.capacity e.current_pos e.clock := by
    rw [victimScan_fst]
    unfold codeVictimIndex
    rcases hf1 : firstFalse (e.clock.drop e.current_pos) with _ | j
    · rcases hf0 : firstFalse (e.clock.take e.current_pos) with _ | i
      · simp only [hf1, hf0]
        rw [Nat.two_mul]
      · simp only [hf1, hf0]
    · simp only [hf1]
      have hj := firstFalse_lt hf1
      rw [List.length_drop] at hj
      exact Nat.mod_eq_of_lt (by omega)
  have hsnd := victimScan_snd e.current_pos e.clock
  unfold ClockEvictor.victim
  simp only [hfix, hidx, hsnd]

theorem touch_of_lt {K : Type} (e : ClockEvictor K) (i : Nat) (hi : i < e.clock.length) :
    e.touch i = some { e with clock := e.clock.set i true } := by
  unfold ClockEvictor.touch
  rw [if_pos hi]

theorem add_of_fill {K : Type} [DecidableEq K] (e : ClockEvictor K) (k : K)
    (hfill : e.mapping.length < e.capacity) (hlen : e.clock.length = e.capacity) :
    e.add k = some ((e.mapping.length, none),
      { e with
        mapping := ainsert e.mapping e.mapping.length k
        clock := e.clock.set e.mapping.length true }) := by
  unfold ClockEvictor.add
  simp only [if_pos hfill]
  rw [touch_of_lt]
  exact (by simpa [hlen] using hfill)

theorem add_of_full {K : Type} [DecidableEq K] (e : ClockEvictor K) (k : K)
    (hfull : ¬ e.mapping.length < e.capacity) (hlen : e.clock.length = e.capacity)
    (hcap : 1 ≤ e.capacity) :
    e.add k = some ((codeVictimIndex e.capacity e.current_pos e.clock,
        alookup e.mapping (codeVictimIndex e.capacity e.current_pos e.clock)),
      { e with
        current_pos := codeVictimIndex e.capacity e.current_pos e.clock + 1
        clock := (clearedClock e.current_pos e.clock).set
          (codeVictimIndex e.capacity e.current_pos e.clock) true
        mapping := ainsert (aerase e.mapping (codeVictimIndex e.capacity e.current_pos e.clock))
          (codeVictimIndex e.capacity e.current_pos e.clock) k }) := by
  unfold ClockEvictor.add
  simp only [if_neg hfull]
  rw [victim_eq e hlen hcap]
  simp only
  rw [touch_of_lt]
  show codeVictimIndex e.capacity e.current_pos e.clock < (clearedClock e.current_pos e.clock).length
  rw [clearedClock_length, hlen]
  exact codeVictimIndex_lt hlen hcap

/-! ### Evictor invariant preservation -/

theorem mapping_length_le {K : Type} (e : ClockEvictor K) (hnd : (akeys e.mapping).Nodup)
    (hbound : ∀ p ∈ e.mapping, p.1 < e.capacity) : e.mapping.length ≤ e.capacity := by
  have hsub : (akeys e.mapping).toFinset ⊆ Finset.range e.capacity := by
    intro x hx
    rw [List.mem_toFinset] at hx
    rcases exists_of_mem_akeys hx with ⟨b, hb⟩
    exact Finset.mem_range.mpr (hbound _ hb)
  have hcard := Finset.card_le_card hsub
  rw [Finset.card_range, List.toFinset_card_of_nodup hnd] at hcard
  calc e.mapping.length = (akeys e.mapping).length := (List.length_map _ _).symm
    _ ≤ e.capacity := hcard

theorem EvInv_new (K : Type) (capacity : Nat) : EvInv (ClockEvictor.new K capacity) := by
  refine ⟨by simp [ClockEvictor.new], by simp [ClockEvictor.new],
    by simp [ClockEvictor.new, akeys], by simp [ClockEvictor.new], ?_⟩
  intro i hi
  simp [ClockEvictor.new, alookup]

/-- Unified description of a successful `add` under the invariant: the key is
installed at the returned slot (any previous binding of that slot erased), the
reported victim is the key the mapping held at that slot, and the slot's
touched bit ends up set. -/
theorem add_spec {K : Type} [DecidableEq K] (e : ClockEvictor K) (k : K) (hInv : EvInv e)
    (hcap : 1 ≤ e.capacity) :
    ∃ idx e2, e.add k = some ((idx, alookup e.mapping idx), e2) ∧ EvInv e2 ∧
      idx < e.capacity ∧ e2.capacity = e.capacity ∧
      e2.mapping = ainsert (aerase e.mapping idx) idx k ∧
      e2.clock.getD idx false = true := by
  obtain ⟨hlen, hpos, hnd, hbound, hiff⟩ := hInv
  by_cases hfill : e.mapping.length < e.capacity
  · have hnone : alookup e.mapping e.mapping.length = none := by
      rcases hl : alookup e.mapping e.mapping.length with _ | b
      · rfl
      · have : e.mapping.length < e.mapping.length := by
          have := (hiff e.mapping.length hfill).mp (by simp [hl])
          exact this
        omega
    refine ⟨e.mapping.length,
      { e with
        mapping := ainsert e.mapping e.mapping.length k
        clock := e.clock.set e.mapping.length true },
      ?_, ?_, hfill, rfl, ?_, ?_⟩
    · rw [add_of_fill e k hfill hlen, hnone]
    · refine ⟨by simpa using hlen, hpos, akeys_nodup_ainsert _ _ hnd, ?_, ?_⟩
      · intro p hp
        rcases mem_ainsert hp with h1 | h1
        · rw [h1]
          exact hfill
        · exact hbound p h1
      · intro i hi
        rw [length_ainsert_of_absent k hnone]
        by_cases hie : i = e.mapping.length
        · subst hie
          simp [alookup_ainsert_self]
        · rw [alookup_ainsert_ne _ _ _ _ hie]
          constructor
          · intro hs
            have := (hiff i hi).mp hs
            omega
          · intro hlt
            have hlt2 : i < e.mapping.length := by omega
            exact (hiff i hi).mpr hlt2
    · rw [aerase_of_absent hnone]
    · exact getD_set_self _ _ _ (by simpa [hlen] using hfill)
  · have hle := mapping_length_le e hnd hbound
    have hml : e.mapping.length = e.capacity := by omega
    have hidx : codeVictimIndex e.capacity e.current_pos e.clock < e.capacity :=
      codeVictimIndex_lt hlen hcap
    have hsome : ∃ kev,
        alookup e.mapping (codeVictimIndex e.capacity e.current_pos e.clock) = some kev := by
      have := (hiff _ hidx).mpr (by omega)
      rcases hl : alookup e.mapping (codeVictimIndex e.capacity e.current_pos e.clock)
        with _ | b
      · rw [hl] at this
        simp at this
      · exact ⟨b, rfl⟩
    rcases hsome with ⟨kev, hkev⟩
    have hersome : alookup (aerase e.mapping (codeVictimIndex e.capacity e.current_pos e.clock))
        (codeVictimIndex e.capacity e.current_pos e.clock) = none :=
      alookup_aerase_self _ hnd
    have herlen := length_aerase_of_present hkev
    refine ⟨codeVictimIndex e.capacity e.current_pos e.clock,
      { e with
        current_pos := codeVictimIndex e.capacity e.current_pos e.clock + 1
        clock := (clearedClock e.current_pos e.clock).set
          (codeVictimIndex e.capacity e.current_pos e.clock) true
        mapping := ainsert (aerase e.mapping (codeVictimIndex e.capacity e.current_pos e.clock))
          (codeVictimIndex e.capacity e.current_pos e.clock) k },
      add_of_full e k hfill hlen hcap, ?_, hidx, rfl, rfl, ?_⟩
    · refine ⟨by simp [clearedClock_length, hlen],
        by show codeVictimIndex e.capacity e.current_pos e.clock + 1 ≤ e.capacity; omega,
        akeys_nodup_ainsert _ _ (akeys_nodup_aerase _ hnd), ?_, ?_⟩
      · intro p hp
        rcases mem_ainsert hp with h1 | h1
        · rw [h1]
          exact hidx
        · exact hbound p (mem_of_mem_aerase h1)
      · intro i hi
        rw [length_ainsert_of_absent k hersome]
        by_cases hie : i = codeVictimIndex e.capacity e.current_pos e.clock
        · subst hie
          simp [alookup_ainsert_self]
          omega
        · rw [alookup_ainsert_ne _ _ _ _ hie, alookup_aerase_ne _ _ _ hie]
          rw [hiff i hi]
          omega
    · exact getD_set_self _ _ _ (by simp [clearedClock_length, hlen, hidx])

/-! ### Segment invariant -/

theorem length_le_of_nodup_lt {l : List Nat} {n : Nat} (hnd : l.Nodup)
    (hbound : ∀ x ∈ l, x < n) : l.length ≤ n := by
  have hsub : l.toFinset ⊆ Finset.range n := by
    intro x hx
    rw [List.mem_toFinset] at hx
    exact Finset.mem_range.mpr (hbound _ hx)
  have hcard := Finset.card_le_card hsub
  rw [Finset.card_range, List.toFinset_card_of_nodup hnd] at hcard
  exact hcard

theorem eq_of_mem_eq_key {α β : Type} [DecidableEq α] {m : List (α × β)} {p q : α × β}
    (hnd : (akeys m).Nodup) (hp : p ∈ m) (hq : q ∈ m) (hk : p.1 = q.1) : p = q := by
  have h1 : alookup m p.1 = some p.2 := alookup_eq_some_of_mem hnd hp
  have h2 : alookup m q.1 = some q.2 := alookup_eq_some_of_mem hnd hq
  rw [hk, h2] at h1
  injection h1 with h3
  exact Prod.ext_iff.mpr ⟨hk, h3.symm⟩

theorem ne_key_of_mem_aerase {α β : Type} [DecidableEq α] {m : List (α × β)} {a : α}
    {p : α × β} (hnd : (akeys m).Nodup) (hp : p ∈ aerase m a) : p.1 ≠ a := by
  intro hc
  have h1 : alookup (aerase m a) p.1 = some p.2 :=
    alookup_eq_some_of_mem (akeys_nodup_aerase a hnd) hp
  rw [hc, alookup_aerase_self a hnd] at h1
  exact Option.noConfusion h1

theorem SegInv_new (K V : Type) [DecidableEq K] (capacity : Nat) :
    SegInv (Segment.new K V capacity) := by
  refine ⟨EvInv_new K capacity, by simp [Segment.new, akeys], ?_⟩
  intro p hp
  simp [Segment.new] at hp

theorem data_length_le {K V : Type} [DecidableEq K] (s : Segment K V) (hInv : SegInv s) :
    s.data.length ≤ s.evictor.capacity := by
  obtain ⟨hEv, hnd, hmap⟩ := hInv
  have hdnd : s.data.Nodup := List.Nodup.of_map Prod.fst hnd
  have hmnd : (s.data.map (fun p => p.2.2)).Nodup := by
    refine List.Nodup.map_on ?_ hdnd
    intro p hp q hq hpq
    have h1 := (hmap p hp).2
    have h2 := (hmap q hq).2
    rw [hpq, h2] at h1
    injection h1 with h3
    exact eq_of_mem_eq_key hnd hp hq h3.symm
  have hbound : ∀ x ∈ s.data.map (fun p => p.2.2), x < s.evictor.capacity := by
    intro x hx
    rcases List.mem_map.mp hx with ⟨p, hp, rfl⟩
    exact (hmap p hp).1
  have := length_le_of_nodup_lt hmnd hbound
  rw [List.length_map] at this
  exact this

theorem EvInv_touch {K : Type} {e e' : ClockEvictor K} {i : Nat} (hInv : EvInv e)
    (h : e.touch i = some e') :
    EvInv e' ∧ e'.mapping = e.mapping ∧ e'.capacity = e.capacity := by
  unfold ClockEvictor.touch at h
  by_cases hi : i < e.clock.length
  · rw [if_pos hi] at h
    injection h with h1
    subst h1
    obtain ⟨h1, h2, h3, h4, h5⟩ := hInv
    exact ⟨⟨by simpa using h1, h2, h3, h4, h5⟩, rfl, rfl⟩
  · rw [if_neg hi] at h
    exact Option.noConfusion h

theorem fixIndex_zero (x : Nat) : fixIndex 0 x = none := by
  simp [fixIndex]

theorem victim_zero {K : Type} [DecidableEq K] (e : ClockEvictor K) (hc : e.capacity = 0) :
    e.victim = none := by
  unfold ClockEvictor.victim
  rw [hc]
  simp only [fixIndex_zero]

theorem add_cap_pos {K : Type} [DecidableEq K] {e : ClockEvictor K} {k : K}
    {r : (Nat × Option K) × ClockEvictor K} (h : e.add k = some r) : 1 ≤ e.capacity := by
  by_contra hc
  have hc0 : e.capacity = 0 := by omega
  unfold ClockEvictor.add at h
  rw [if_neg (by omega), victim_zero e hc0] at h
  exact Option.noConfusion h

/-- The insert path shared by `get_or_populate` and `update` on an absent key:
a successful slot allocation preserves the segment invariant. -/
theorem SegInv_insert_path {K V : Type} [DecidableEq K] {s : Segment K V} {key : K} (value : V)
    {idx : Nat} {vic : Option K} {e2 : ClockEvictor K}
    (hInv : SegInv s) (_habs : alookup s.data key = none)
    (hadd : s.evictor.add key = some ((idx, vic), e2)) :
    SegInv { data := insertThenEvict s.data key value idx vic, evictor := e2 } ∧
      e2.capacity = s.evictor.capacity := by
  obtain ⟨hEv, hnd, hmap⟩ := hInv
  have hcap := add_cap_pos hadd
  obtain ⟨idx2, e22, heq, hInv2, hlt, hcapeq, hmapeq, hbit⟩ := add_spec s.evictor key hEv hcap
  rw [hadd] at heq
  injection heq with heq1
  injection heq1 with hA hB
  injection hA with hA1 hA2
  subst hA1
  subst hB
  subst hA2
  refine ⟨⟨hInv2, ?_, ?_⟩, hcapeq⟩
  · show (akeys (insertThenEvict s.data key value idx (alookup s.evictor.mapping idx))).Nodup
    unfold insertThenEvict
    rcases hvic : alookup s.evictor.mapping idx with _ | kev
    · exact akeys_nodup_ainsert _ _ hnd
    · exact akeys_nodup_aerase _ (akeys_nodup_ainsert _ _ hnd)
  · intro p hp
    have hp2 : p ∈ insertThenEvict s.data key value idx (alookup s.evictor.mapping idx) := hp
    show p.2.2 < e2.capacity ∧ alookup e2.mapping p.2.2 = some p.1
    clear hp
    unfold insertThenEvict at hp2
    rcases hvic : alookup s.evictor.mapping idx with _ | kev
    · rw [hvic] at hp2
      rcases mem_ainsert hp2 with h1 | h1
      · refine ⟨?_, ?_⟩
        · rw [h1]
          show idx < e2.capacity
          omega
        · rw [h1, hmapeq]
          show alookup (ainsert (aerase s.evictor.mapping idx) idx key) idx = some key
          exact alookup_ainsert_self _ _ _
      · have hold := hmap p h1
        have hne : p.2.2 ≠ idx := by
          intro hc
          rw [hc, hvic] at hold
          exact Option.noConfusion hold.2
        refine ⟨by omega, ?_⟩
        rw [hmapeq, alookup_ainsert_ne _ _ _ _ hne, alookup_aerase_ne _ _ _ hne]
        exact hold.2
    · rw [hvic] at hp2
      have hp1 : p ∈ ainsert s.data key (value, idx) := mem_of_mem_aerase hp2
      have hpk : p.1 ≠ kev := ne_key_of_mem_aerase (akeys_nodup_ainsert _ _ hnd) hp2
      rcases mem_ainsert hp1 with h1 | h1
      · refine ⟨?_, ?_⟩
        · rw [h1]
          show idx < e2.capacity
          omega
        · rw [h1, hmapeq]
          show alookup (ainsert (aerase s.evictor.mapping idx) idx key) idx = some key
          exact alookup_ainsert_self _ _ _
      · have hold := hmap p h1
        have hne : p.2.2 ≠ idx := by
          intro hc
          rw [hc, hvic] at hold
          have hkk : p.1 = kev := by
            have h2 := hold.2
            injection h2 with hh
            exact hh.symm
          exact hpk hkk
        refine ⟨by omega, ?_⟩
        rw [hmapeq, alookup_ainsert_ne _ _ _ _ hne, alookup_aerase_ne _ _ _ hne]
        exact hold.2

/-- Touching a resident entry's slot preserves the segment invariant. -/
theorem SegInv_touched {K V : Type} [DecidableEq K] {s : Segment K V} {i : Nat}
    {ev : ClockEvictor K} (hInv : SegInv s) (h : s.evictor.touch i = some ev) :
    SegInv { s with evictor := ev } ∧ ev.capacity = s.evictor.capacity := by
  obtain ⟨hEv, hnd, hmap⟩ := hInv
  obtain ⟨hEv2, hm, hc⟩ := EvInv_touch hEv h
  refine ⟨⟨hEv2, hnd, ?_⟩, hc⟩
  intro p hp
  rw [hm, hc]
  exact hmap p hp

theorem SegInv_get {K V : Type} [DecidableEq K] {s : Segment K V} {key : K} {r : Option V}
    {s' : Segment K V} (hInv : SegInv s) (h : Segment.get s key = some (r, s')) :
    SegInv s' ∧ s'.evictor.capacity = s.evictor.capacity := by
  unfold Segment.get at h
  split at h
  · rename_i v idx hl
    split at h
    · exact Option.noConfusion h
    · rename_i ev ht
      simp only [Option.some.injEq, Prod.mk.injEq] at h
      obtain ⟨hr, hs⟩ := h
      subst hs
      exact SegInv_touched hInv ht
  · rename_i hl
    simp only [Option.some.injEq, Prod.mk.injEq] at h
    obtain ⟨hr, hs⟩ := h
    subst hs
    exact ⟨hInv, rfl⟩

theorem SegInv_pop {K V : Type} [DecidableEq K] {s : Segment K V} {key : K}
    {f : K → Option V} {r : Option V} {s' : Segment K V} (hInv : SegInv s)
    (h : Segment.get_or_populate s key f = some (r, s')) :
    SegInv s' ∧ s'.evictor.capacity = s.evictor.capacity := by
  unfold Segment.get_or_populate at h
  split at h
  · rename_i v idx hl
    split at h
    · exact Option.noConfusion h
    · rename_i ev ht
      simp only [Option.some.injEq, Prod.mk.injEq] at h
      obtain ⟨hr, hs⟩ := h
      subst hs
      exact SegInv_touched hInv ht
  · rename_i hl
    split at h
    · simp only [Option.some.injEq, Prod.mk.injEq] at h
      obtain ⟨hr, hs⟩ := h
      subst hs
      exact ⟨hInv, rfl⟩
    · rename_i value hf
      split at h
      · exact Option.noConfusion h
      · rename_i idx vic ev hadd
        simp only [Option.some.injEq, Prod.mk.injEq] at h
        obtain ⟨hr, hs⟩ := h
        subst hs
        exact SegInv_insert_path value hInv hl hadd

theorem SegInv_update {K V : Type} [DecidableEq K] {s : Segment K V} {key : K}
    {f : K → Option V → Option V} {r : Option V} {s' : Segment K V} (hInv : SegInv s)
    (h : Segment.update s key f = some (r, s')) :
    SegInv s' ∧ s'.evictor.capacity = s.evictor.capacity := by
  unfold Segment.update at h
  split at h
  · rename_i v idx hl
    split at h
    · rename_i value hf
      split at h
      · exact Option.noConfusion h
      · rename_i ev ht
        simp only [Option.some.injEq, Prod.mk.injEq] at h
        obtain ⟨hr, hs⟩ := h
        subst hs
        obtain ⟨hEv, hnd, hmap⟩ := hInv
        obtain ⟨hEv2, hm, hc⟩ := EvInv_touch hEv ht
        refine ⟨⟨hEv2, akeys_nodup_ainsert _ _ hnd, ?_⟩, hc⟩
        intro p hp
        rw [hm, hc]
        rcases mem_ainsert hp with h1 | h1
        · have hold := hmap _ (mem_of_alookup_eq_some hl)
          rw [h1]
          exact ⟨hold.1, hold.2⟩
        · exact hmap p h1
    · rename_i hf
      simp only [Option.some.injEq, Prod.mk.injEq] at h
      obtain ⟨hr, hs⟩ := h
      subst hs
      obtain ⟨hEv, hnd, hmap⟩ := hInv
      exact ⟨⟨hEv, akeys_nodup_aerase _ hnd, fun p hp => hmap p (mem_of_mem_aerase hp)⟩, rfl⟩
  · rename_i hl
    split at h
    · rename_i value hf
      split at h
      · exact Option.noConfusion h
      · rename_i idx vic ev hadd
        simp only [Option.some.injEq, Prod.mk.injEq] at h
        obtain ⟨hr, hs⟩ := h
        subst hs
        exact SegInv_insert_path value hInv hl hadd
    · rename_i hf
      simp only [Option.some.injEq, Prod.mk.injEq] at h
      obtain ⟨hr, hs⟩ := h
      subst hs
      exact ⟨hInv, rfl⟩

theorem SegInv_cget {K V : Type} [DecidableEq K] {s : Segment K V} {key : K}
    {f : K → Option V} {r : Option V} {s' : Segment K V} (hInv : SegInv s)
    (h : CacheThrough.get s key f = some (r, s')) :
    SegInv s' ∧ s'.evictor.capacity = s.evictor.capacity := by
  unfold CacheThrough.get at h
  split at h
  · exact Option.noConfusion h
  · rename_i v s1 hg
    simp only [Option.some.injEq, Prod.mk.injEq] at h
    obtain ⟨hr, hs⟩ := h
    subst hs
    exact SegInv_get hInv hg
  · rename_i s1 hg
    have h1 := SegInv_get hInv hg
    have h2 := SegInv_pop h1.1 h
    exact ⟨h2.1, h2.2.trans h1.2⟩

theorem SegInv_runOp {K V : Type} [DecidableEq K] {s : Segment K V} {op : CacheOp K V}
    {r : Option V} {s' : Segment K V} (hInv : SegInv s) (h : runOp s op = some (r, s')) :
    SegInv s' ∧ s'.evictor.capacity = s.evictor.capacity := by
  cases op with
  | read key => exact SegInv_get hInv h
  | get key f => exact SegInv_cget hInv h
  | populate key f => exact SegInv_pop hInv h
  | update key f => exact SegInv_update hInv h
  | remove key =>
    have h2 : Segment.update s key (fun _ _ => none) = some (r, s') := h
    exact SegInv_update hInv h2

theorem SegInv_runOps {K V : Type} [DecidableEq K] {s : Segment K V} {ops : List (CacheOp K V)}
    {s' : Segment K V} (hInv : SegInv s) (h : runOps s ops = some s') :
    SegInv s' ∧ s'.evictor.capacity = s.evictor.capacity := by
  induction ops generalizing s with
  | nil =>
    unfold runOps at h
    injection h with h1
    subst h1
    exact ⟨hInv, rfl⟩
  | cons op rest ih =>
    unfold runOps at h
    split at h
    · exact Option.noConfusion h
    · rename_i r1 s1 h1
      have hstep := SegInv_runOp hInv h1
      have htail := ih hstep.1 h
      exact ⟨htail.1, htail.2.trans hstep.2⟩

/-! ### Filling a fresh segment with distinct keys -/

theorem withIdx_length {α : Type} (n : Nat) (l : List α) : (withIdx n l).length = l.length := by
  induction l generalizing n with
  | nil => rfl
  | cons a rest ih => simp [withIdx, ih]

theorem withIdx_append_single {α : Type} (n : Nat) (l : List α) (a : α) :
    withIdx n (l ++ [a]) = withIdx n l ++ [(n + l.length, a)] := by
  induction l generalizing n with
  | nil => simp [withIdx]
  | cons b rest ih =>
    have h1 : withIdx n ((b :: rest) ++ [a]) = (n, b) :: withIdx (n + 1) (rest ++ [a]) := rfl
    have h2 : withIdx n (b :: rest) ++ [(n + (b :: rest).length, a)] =
        (n, b) :: (withIdx (n + 1) rest ++ [(n + (rest.length + 1), a)]) := by
      simp [withIdx]
    rw [h1, h2, ih (n + 1)]
    have h3 : n + 1 + rest.length = n + (rest.length + 1) := by omega
    rw [h3]

theorem withIdx_map_snd {α : Type} (n : Nat) (l : List α) :
    (withIdx n l).map Prod.snd = l := by
  induction l generalizing n with
  | nil => rfl
  | cons a rest ih => simp [withIdx, ih]

theorem alookup_withIdx_of_ge {α : Type} {n m : Nat} {l : List α} (h : n + l.length ≤ m) :
    alookup (withIdx n l) m = none := by
  induction l generalizing n with
  | nil => rfl
  | cons a rest ih =>
    simp only [List.length_cons] at h
    have hne : n ≠ m := by omega
    simp only [withIdx, alookup, if_neg hne]
    exact ih (by omega)

theorem alookup_withIdx_of_lt {α : Type} {n m : Nat} {l : List α} (h : m < n) :
    alookup (withIdx n l) m = none := by
  induction l generalizing n with
  | nil => rfl
  | cons a rest ih =>
    have hne : n ≠ m := by omega
    simp only [withIdx, alookup, if_neg hne]
    exact ih (by omega)

theorem akeys_mapTriple {K V : Type} (n : Nat) (ks : List K) (g : K → V) :
    akeys ((withIdx n ks).map (fun p => (p.2, g p.2, p.1))) = ks := by
  induction ks generalizing n with
  | nil => rfl
  | cons a rest ih => simp [withIdx, akeys] at ih ⊢; exact ih (n + 1)

theorem akeys_dataOf {K V : Type} (ks : List K) (g : K → V) : akeys (dataOf ks g) = ks :=
  akeys_mapTriple 0 ks g

theorem set_boundary (n m : Nat) :
    (List.replicate n true ++ false :: List.replicate m false).set n true =
      List.replicate (n + 1) true ++ List.replicate m false := by
  induction n with
  | zero => simp [List.replicate_succ]
  | succ n ih =>
    simp only [List.replicate_succ, List.cons_append, List.set_cons_succ, ih]

theorem fillClock_set (n C : Nat) (h : n < C) :
    (List.replicate n true ++ List.replicate (C - n) false).set n true =
      List.replicate (n + 1) true ++ List.replicate (C - (n + 1)) false := by
  have h1 : C - n = (C - (n + 1)) + 1 := by omega
  rw [h1, List.replicate_succ]
  exact set_boundary n (C - (n + 1))

/-- One always-populating `CacheThrough::get` of a fresh key below capacity
advances the fill state by one slot. -/
theorem cget_fill_step {K V : Type} [DecidableEq K] (C : Nat) (pre : List K) (k : K)
    (g : K → V) (hmem : k ∉ pre) (hlen : pre.length < C) :
    CacheThrough.get (fillSeg C pre g) k (fun x => some (g x)) =
      some (some (g k), fillSeg C (pre ++ [k]) g) := by
  have hlk : alookup (dataOf pre g) k = none := by
    rw [alookup_eq_none_iff, akeys_dataOf]
    exact hmem
  have hmlen : (withIdx 0 pre).length = pre.length := withIdx_length 0 pre
  have hclen : (List.replicate pre.length true ++
      List.replicate (C - pre.length) false).length = C := by
    simp [List.length_replicate]
    omega
  have hmfresh : alookup (withIdx 0 pre) pre.length = none :=
    alookup_withIdx_of_ge (by omega)
  have hlk2 : alookup (fillSeg C pre g).data k = none := hlk
  have h0 := add_of_fill (K := K)
    { capacity := C
      current_pos := 0
      clock := List.replicate pre.length true ++ List.replicate (C - pre.length) false
      mapping := withIdx 0 pre } k (by simpa [hmlen] using hlen) (by simpa using hclen)
  have hadd2 : (fillSeg C pre g).evictor.add k = some (((withIdx 0 pre).length, none),
      { capacity := C
        current_pos := 0
        clock := (List.replicate pre.length true ++
          List.replicate (C - pre.length) false).set (withIdx 0 pre).length true
        mapping := ainsert (withIdx 0 pre) (withIdx 0 pre).length k }) := h0
  rw [hmlen] at hadd2
  have hget : Segment.get (fillSeg C pre g) k = some (none, fillSeg C pre g) := by
    unfold Segment.get
    rw [hlk2]
  have hdata : insertThenEvict (fillSeg C pre g).data k (g k) pre.length none =
      dataOf (pre ++ [k]) g := by
    show ainsert (dataOf pre g) k (g k, pre.length) = dataOf (pre ++ [k]) g
    rw [ainsert_of_absent (g k, pre.length) hlk]
    unfold dataOf
    rw [withIdx_append_single]
    simp
  have hpop : Segment.get_or_populate (fillSeg C pre g) k (fun x => some (g x)) =
      some (some (g k),
        { data := insertThenEvict (fillSeg C pre g).data k (g k) pre.length none
          evictor :=
            { capacity := C
              current_pos := 0
              clock := (List.replicate pre.length true ++
                List.replicate (C - pre.length) false).set pre.length true
              mapping := ainsert (withIdx 0 pre) pre.length k } }) := by
    unfold Segment.get_or_populate
    rw [hlk2]
    show (match (fun x => some (g x)) k with
      | none => some (none, fillSeg C pre g)
      | some value =>
        match (fillSeg C pre g).evictor.add k with
        | none => none
        | some ((index, vic), ev) =>
          some (some value,
            { data := insertThenEvict (fillSeg C pre g).data k value index vic
              evictor := ev })) = _
    rw [show (fun x => some (g x)) k = some (g k) from rfl]
    simp only
    rw [hadd2]
  have hfinal : (Segment.mk
      (insertThenEvict (fillSeg C pre g).data k (g k) pre.length none)
      { capacity := C
        current_pos := 0
        clock := (List.replicate pre.length true ++
          List.replicate (C - pre.length) false).set pre.length true
        mapping := ainsert (withIdx 0 pre) pre.length k } : Segment K V) =
      fillSeg C (pre ++ [k]) g := by
    rw [hdata]
    unfold fillSeg
    congr 1
    congr 1
    · rw [List.length_append, List.length_cons, List.length_nil]
      exact fillClock_set pre.length C hlen
    · rw [ainsert_of_absent k hmfresh, withIdx_append_single]
      simp
  unfold CacheThrough.get
  rw [hget]
  show Segment.get_or_populate (fillSeg C pre g) k (fun x => some (g x)) =
    some (some (g k), fillSeg C (pre ++ [k]) g)
  rw [hpop, hfinal]

theorem fillSeg_nil (K V : Type) [DecidableEq K] (C : Nat) (g : K → V) :
    fillSeg C [] g = Segment.new K V C := by
  unfold fillSeg Segment.new ClockEvictor.new dataOf withIdx
  simp

theorem runOps_append {K V : Type} [DecidableEq K] (s : Segment K V) (l1 l2 : List (CacheOp K V)) :
    runOps s (l1 ++ l2) =
      (match runOps s l1 with
       | none => none
       | some s1 => runOps s1 l2) := by
  induction l1 generalizing s with
  | nil => simp [runOps]
  | cons op rest ih =>
    have hL : runOps s ((op :: rest) ++ l2) =
        (match runOp s op with
         | none => none
         | some (_, s1) => runOps s1 (rest ++ l2)) := rfl
    have hR : runOps s (op :: rest) =
        (match runOp s op with
         | none => none
         | some (_, s1) => runOps s1 rest) := rfl
    rw [hL, hR]
    rcases hop : runOp s op with _ | ⟨r1, s1⟩
    · rfl
    · exact ih s1

theorem runOps_fill {K V : Type} [DecidableEq K] (C : Nat) (g : K → V) :
    ∀ (ks pre : List K), (pre ++ ks).Nodup → (pre ++ ks).length ≤ C →
      runOps (fillSeg C pre g) (ks.map (popGet g)) = some (fillSeg C (pre ++ ks) g) := by
  intro ks
  induction ks with
  | nil =>
    intro pre h1 h2
    simp [runOps]
  | cons k rest ih =>
    intro pre hnd hlen
    have hk : k ∉ pre := by
      rw [List.nodup_append] at hnd
      intro hc
      exact hnd.2.2 hc (List.mem_cons_self k rest)
    have hlen2 : pre.length < C := by
      rw [List.length_append, List.length_cons] at hlen
      omega
    have hstep : runOp (fillSeg C pre g) (popGet g k) =
        some (some (g k), fillSeg C (pre ++ [k]) g) := cget_fill_step C pre k g hk hlen2
    show runOps (fillSeg C pre g) (popGet g k :: rest.map (popGet g)) = _
    unfold runOps
    rw [hstep]
    simp only
    have hih := ih (pre ++ [k]) (by simpa using hnd) (by simpa using hlen)
    rw [hih]
    simp

theorem codeVictimIndex_all_true (C : Nat) :
    codeVictimIndex C 0 (List.replicate C true) = 0 := by
  unfold codeVictimIndex
  simp [firstFalse_replicate_true, firstFalse]

theorem clearedClock_all_true (C : Nat) :
    clearedClock 0 (List.replicate C true) = List.replicate C false := by
  unfold clearedClock scanCleared
  simp [firstFalse_replicate_true, firstFalse]

theorem fillSeg_full (K V : Type) [DecidableEq K] (C : Nat) (ks : List K) (g : K → V)
    (h : ks.length = C) :
    fillSeg C ks g = Segment.mk (dataOf ks g)
      { capacity := C
        current_pos := 0
        clock := List.replicate C true
        mapping := withIdx 0 ks } := by
  unfold fillSeg
  rw [h]
  simp

/-- The insertion one past capacity from a freshly filled segment: the hand is
at 0, every bit is set, the full circuit clears them all and slot 0 (holding
the first key inserted) is the victim. -/
theorem cget_full_step {K V : Type} [DecidableEq K] (C : Nat) (k0 : K) (mid : List K)
    (klast : K) (g : K → V) (hC : mid.length + 1 = C) (hk0 : klast ≠ k0)
    (hkmid : klast ∉ mid) :
    CacheThrough.get (fillSeg C (k0 :: mid) g) klast (fun x => some (g x)) =
      some (some (g klast),
        Segment.mk ((withIdx 1 mid).map (fun p => (p.2, g p.2, p.1)) ++ [(klast, g klast, 0)])
          { capacity := C
            current_pos := 1
            clock := (List.replicate C false).set 0 true
            mapping := withIdx 1 mid ++ [(0, klast)] }) := by
  have hCk : (k0 :: mid).length = C := by simpa using hC
  rw [fillSeg_full K V C (k0 :: mid) g hCk]
  have hlk : alookup (dataOf (k0 :: mid) g) klast = none := by
    rw [alookup_eq_none_iff, akeys_dataOf]
    intro hc
    rcases List.mem_cons.mp hc with h1 | h1
    · exact hk0 h1
    · exact hkmid h1
  have hmlen : (withIdx 0 (k0 :: mid)).length = C := by
    rw [withIdx_length]
    exact hCk
  have h0 := add_of_full (K := K)
    { capacity := C
      current_pos := 0
      clock := List.replicate C true
      mapping := withIdx 0 (k0 :: mid) } klast
    (by show ¬ (withIdx 0 (k0 :: mid)).length < C
        rw [hmlen]
        omega)
    (by simp) (by show 1 ≤ C; omega)
  rw [codeVictimIndex_all_true C, clearedClock_all_true C] at h0
  have hlook0 : alookup (withIdx 0 (k0 :: mid)) 0 = some k0 := by
    simp [withIdx, alookup]
  have herase0 : aerase (withIdx 0 (k0 :: mid)) 0 = withIdx 1 mid := by
    simp [withIdx, aerase]
  have hins0 : ainsert (withIdx 1 mid) 0 klast = withIdx 1 mid ++ [(0, klast)] :=
    ainsert_of_absent klast (alookup_withIdx_of_lt (by omega))
  rw [hlook0, herase0, hins0] at h0
  have hdata : insertThenEvict (dataOf (k0 :: mid) g) klast (g klast) 0 (some k0) =
      (withIdx 1 mid).map (fun p => (p.2, g p.2, p.1)) ++ [(klast, g klast, 0)] := by
    show aerase (ainsert (dataOf (k0 :: mid) g) klast (g klast, 0)) k0 = _
    rw [ainsert_of_absent (g klast, 0) hlk]
    show aerase ((k0, g k0, 0) :: ((withIdx 1 mid).map (fun p => (p.2, g p.2, p.1)) ++
      [(klast, g klast, 0)])) k0 = _
    simp [aerase]
  unfold CacheThrough.get Segment.get Segment.get_or_populate
  rw [show alookup (Segment.mk (dataOf (k0 :: mid) g)
    { capacity := C
      current_pos := 0
      clock := List.replicate C true
      mapping := withIdx 0 (k0 :: mid) }).data klast = none from hlk]
  simp only
  rw [show alookup (Segment.mk (dataOf (k0 :: mid) g)
    { capacity := C
      current_pos := 0
      clock := List.replicate C true
      mapping := withIdx 0 (k0 :: mid) }).data klast = none from hlk]
  simp only
  rw [h0]
  simp only
  rw [hdata]

/-! ### Claim theorems -/

/-- C1 (counterexample): in the reachable capacity-2 evictor state `c1ev`
(hand 1, both slots occupied and touched), the second-chance rule of the claim
selects slot 1 (the original hand after a fruitless full circuit, holding key
2), but `add` returns victim slot 0, evicting key 3, because the fruitless
scan's fallback offset is added to the hand. -/
theorem claim1_counterexample :
    (((((ClockEvictor.new Nat 2).add 1).bind (fun r => r.2.add 2)).bind
        (fun r => r.2.add 3)).bind (fun r => r.2.touch 1) = some c1ev) ∧
    c1ev.mapping.length = c1ev.capacity ∧
    specVictim c1ev.current_pos c1ev.clock = 1 ∧
    alookup c1ev.mapping 1 = some 2 ∧
    c1ev.add 4 = some ((0, some 3),
      { capacity := 2, current_pos := 1, clock := [true, false], mapping := [(1, 2), (0, 4)] }) := by
  decide

/-- C1 (amended): when `add` runs with all slots occupied, the victim is the
first untouched slot in `[hand, capacity)`; failing that, if the first
untouched slot of `[0, hand)` sits at absolute index `i`, the victim is
`(hand + i) % capacity` (not `i` itself); and after a fruitless full circuit
it is `(2 * hand) % capacity` (the slot at the original hand only when the
hand is 0 or `capacity`).  Every touched bit visited by the scan is cleared,
the victim's previous key is evicted, and the hand becomes `victim + 1`
without reduction modulo the capacity. -/
theorem claim1_amended {K : Type} [DecidableEq K] (e : ClockEvictor K) (k : K)
    (hInv : EvInv e) (hcap : 1 ≤ e.capacity) (hfull : ¬ e.mapping.length < e.capacity) :
    e.add k = some ((codeVictimIndex e.capacity e.current_pos e.clock,
        alookup e.mapping (codeVictimIndex e.capacity e.current_pos e.clock)),
      { e with
        current_pos := codeVictimIndex e.capacity e.current_pos e.clock + 1
        clock := (clearedClock e.current_pos e.clock).set
          (codeVictimIndex e.capacity e.current_pos e.clock) true
        mapping := ainsert (aerase e.mapping (codeVictimIndex e.capacity e.current_pos e.clock))
          (codeVictimIndex e.capacity e.current_pos e.clock) k }) :=
  add_of_full e k hfull hInv.1 hcap

/-- C1 (witness): the amended description applied to the concrete state
`c1ev` and key 4. -/
theorem claim1_witness :
    c1ev.add 4 = some ((codeVictimIndex c1ev.capacity c1ev.current_pos c1ev.clock,
        alookup c1ev.mapping (codeVictimIndex c1ev.capacity c1ev.current_pos c1ev.clock)),
      { c1ev with
        current_pos := codeVictimIndex c1ev.capacity c1ev.current_pos c1ev.clock + 1
        clock := (clearedClock c1ev.current_pos c1ev.clock).set
          (codeVictimIndex c1ev.capacity c1ev.current_pos c1ev.clock) true
        mapping := ainsert (aerase c1ev.mapping
            (codeVictimIndex c1ev.capacity c1ev.current_pos c1ev.clock))
          (codeVictimIndex c1ev.capacity c1ev.current_pos c1ev.clock) 4 }) :=
  claim1_amended c1ev 4 (by decide) (by decide) (by decide)

/-- C2 (counterexample): capacity 4, populate 1,2,3,4, read key 1 again
(touching its slot, a no-op since every bit is already set), then populate 5:
the run evicts key 1 — key 2 is still resident and key 1 is gone, contrary to
the claim that 2 is evicted and 1 survives. -/
theorem claim2_counterexample :
    runOps (Segment.new Nat Nat 4)
      [CacheOp.get 1 pf, CacheOp.get 2 pf, CacheOp.get 3 pf, CacheOp.get 4 pf,
       CacheOp.read 1, CacheOp.get 5 pf] = some c2seg ∧
    alookup c2seg.data 2 = some (2, 1) ∧
    alookup c2seg.data 1 = none := by
  decide

/-- C2 (amended): in the same scenario the insertion of 5 evicts key 1: the
extra touch of key 1 is idempotent (its bit is already set after insertion),
the full circuit clears every bit, and the fallback victim is slot 0, which
holds key 1; keys 2, 3, 4 and 5 are the residents afterwards. -/
theorem claim2_amended :
    runOps (Segment.new Nat Nat 4)
      [CacheOp.get 1 pf, CacheOp.get 2 pf, CacheOp.get 3 pf, CacheOp.get 4 pf,
       CacheOp.read 1, CacheOp.get 5 pf] = some c2seg ∧
    alookup c2seg.data 1 = none ∧
    alookup c2seg.data 2 = some (2, 1) ∧
    alookup c2seg.data 3 = some (3, 2) ∧
    alookup c2seg.data 4 = some (4, 3) ∧
    alookup c2seg.data 5 = some (5, 0) ∧
    c2seg.data.length = 4 := by
  decide

/-- C6: a capacity-0 cache does not behave as specified: a plain read misses
harmlessly and an update that returns nothing is a no-op, but any operation
that tries to insert (a populating get, or an update returning a value)
panics — the victim scan executes `index %= capacity` with capacity 0, a
remainder by zero — instead of merely not retaining the value. -/
theorem claim6_zero_capacity_panics :
    Segment.get (Segment.new Nat Nat 0) 1 = some (none, Segment.new Nat Nat 0) ∧
    Segment.update (Segment.new Nat Nat 0) 1 delFn = some (none, Segment.new Nat Nat 0) ∧
    Segment.get_or_populate (Segment.new Nat Nat 0) 1 (fun _ => some 42) = none ∧
    CacheThrough.get (Segment.new Nat Nat 0) 1 (fun _ => some 42) = none ∧
    Segment.update (Segment.new Nat Nat 0) 1 (fun _ _ => some 42) = none := by
  decide

/-- C10: whenever `add` succeeds (any evictor state satisfying the invariant,
capacity at least 1), the returned slot's touched bit is set: `add` installs
the key and immediately touches the slot it assigned. -/
theorem claim10_installed_touched {K : Type} [DecidableEq K] (e : ClockEvictor K) (k : K)
    (hInv : EvInv e) (hcap : 1 ≤ e.capacity) :
    ∃ idx vic e2, e.add k = some ((idx, vic), e2) ∧ idx < e.capacity ∧
      e2.clock.getD idx false = true := by
  obtain ⟨idx, e2, heq, _, hlt, _, _, hbit⟩ := add_spec e k hInv hcap
  exact ⟨idx, alookup e.mapping idx, e2, heq, hlt, hbit⟩

/-- C10 (witness): the property at a concrete fresh evictor of capacity 1. -/
theorem claim10_witness :
    ∃ idx vic e2, (ClockEvictor.new Nat 1).add 5 = some ((idx, vic), e2) ∧
      idx < (ClockEvictor.new Nat 1).capacity ∧ e2.clock.getD idx false = true :=
  claim10_installed_touched (ClockEvictor.new Nat 1) 5 (by decide) (by decide)

/-- C3: for every capacity `C ≥ 1` and every finite sequence of operations,
the number of resident entries after the run is at most `C`; and populating
`C + 1` distinct keys into a fresh cache with always-populating gets leaves
exactly `C` residents, evicting exactly the first key inserted (slot 0) and
keeping all the others plus the newcomer. -/
theorem claim3_capacity_invariant (K V : Type) [DecidableEq K] :
    (∀ (C : Nat) (ops : List (CacheOp K V)) (st : Segment K V), 1 ≤ C →
      runOps (Segment.new K V C) ops = some st → st.data.length ≤ C) ∧
    (∀ (C : Nat) (g : K → V) (k0 : K) (mid : List K) (klast : K),
      (k0 :: mid).length = C → (k0 :: (mid ++ [klast])).Nodup →
      ∃ st, runOps (Segment.new K V C) (((k0 :: mid) ++ [klast]).map (popGet g)) = some st ∧
        st.data.length = C ∧ alookup st.data k0 = none ∧
        alookup st.data klast = some (g klast, 0) ∧
        ∀ k ∈ mid, (alookup st.data k).isSome) := by
  constructor
  · intro C ops st hC hrun
    have h := SegInv_runOps (SegInv_new K V C) hrun
    have hle := data_length_le st h.1
    rw [h.2] at hle
    exact hle
  · intro C g k0 mid klast hC hnd
    have hC2 : mid.length + 1 = C := by simpa using hC
    rcases List.nodup_cons.mp hnd with ⟨hk0, hrest⟩
    have hk0mid : k0 ∉ mid := fun hc => hk0 (List.mem_append_left _ hc)
    have hk0last : k0 ≠ klast := by
      intro hc
      exact hk0 (List.mem_append_right _ (hc ▸ List.mem_singleton_self k0))
    rcases List.nodup_append.mp hrest with ⟨hmidnd, _, hdisj⟩
    have hlastmid : klast ∉ mid := fun hc => hdisj hc (List.mem_singleton_self klast)
    have hfillnd : ([] ++ (k0 :: mid)).Nodup := by
      simp only [List.nil_append]
      exact List.nodup_cons.mpr ⟨hk0mid, hmidnd⟩
    have hfill := runOps_fill C g (k0 :: mid) [] hfillnd
      (by simp only [List.nil_append]; omega)
    simp only [List.nil_append] at hfill
    have hsplit : ((k0 :: mid) ++ [klast]).map (popGet g) =
        (k0 :: mid).map (popGet g) ++ [popGet g klast] := by
      rw [List.map_append]
      rfl
    have hstep := cget_full_step C k0 mid klast g hC2 (Ne.symm hk0last) hlastmid
    have hkeys : akeys ((withIdx 1 mid).map (fun p : Nat × K => (p.2, g p.2, p.1)) ++
        [(klast, g klast, 0)]) = mid ++ [klast] := by
      unfold akeys
      rw [List.map_append,
        show ((withIdx 1 mid).map (fun p : Nat × K => (p.2, g p.2, p.1))).map Prod.fst = mid
          from akeys_mapTriple 1 mid g]
      rfl
    refine ⟨Segment.mk
        ((withIdx 1 mid).map (fun p => (p.2, g p.2, p.1)) ++ [(klast, g klast, 0)])
        { capacity := C
          current_pos := 1
          clock := (List.replicate C false).set 0 true
          mapping := withIdx 1 mid ++ [(0, klast)] }, ?_, ?_, ?_, ?_, ?_⟩
    · rw [hsplit, runOps_append, ← fillSeg_nil K V C g, hfill]
      show runOps (fillSeg C (k0 :: mid) g) [popGet g klast] = _
      have hone : runOps (fillSeg C (k0 :: mid) g) [popGet g klast] =
          (match runOp (fillSeg C (k0 :: mid) g) (popGet g klast) with
           | none => none
           | some (_, s1) => runOps s1 []) := rfl
      rw [hone]
      have hrunop : runOp (fillSeg C (k0 :: mid) g) (popGet g klast) =
          some (some (g klast), Segment.mk
            ((withIdx 1 mid).map (fun p => (p.2, g p.2, p.1)) ++ [(klast, g klast, 0)])
            { capacity := C
              current_pos := 1
              clock := (List.replicate C false).set 0 true
              mapping := withIdx 1 mid ++ [(0, klast)] }) := hstep
      rw [hrunop]
      rfl
    · show ((withIdx 1 mid).map (fun p : Nat × K => (p.2, g p.2, p.1)) ++
        [(klast, g klast, 0)]).length = C
      rw [List.length_append, List.length_map, withIdx_length]
      simp only [List.length_cons, List.length_nil]
      omega
    · show alookup ((withIdx 1 mid).map (fun p : Nat × K => (p.2, g p.2, p.1)) ++
        [(klast, g klast, 0)]) k0 = none
      rw [alookup_eq_none_iff, hkeys]
      intro hc
      rcases List.mem_append.mp hc with hc | hc
      · exact hk0mid hc
      · exact hk0last (List.mem_singleton.mp hc)
    · show alookup ((withIdx 1 mid).map (fun p : Nat × K => (p.2, g p.2, p.1)) ++
        [(klast, g klast, 0)]) klast = some (g klast, 0)
      refine alookup_eq_some_of_mem ?_ (List.mem_append_right _ (List.mem_singleton_self _))
      rw [hkeys, List.nodup_append]
      exact ⟨hmidnd, List.nodup_singleton _, hdisj⟩
    · intro k hk
      show (alookup ((withIdx 1 mid).map (fun p : Nat × K => (p.2, g p.2, p.1)) ++
        [(klast, g klast, 0)]) k).isSome
      rw [alookup_isSome_iff, hkeys]
      exact List.mem_append_left _ hk

/-- C3 (witness): the capacity bound at capacity 1 with the empty run, and the
fill property at capacity 1 with keys 10 then 20. -/
theorem claim3_witness :
    ((Segment.new Nat Nat 1).data.length ≤ 1) ∧
    (∃ st, runOps (Segment.new Nat Nat 1) (((10 :: ([] : List Nat)) ++ [20]).map
        (popGet (fun n : Nat => n))) = some st ∧
      st.data.length = 1 ∧ alookup st.data 10 = none ∧
      alookup st.data 20 = some ((fun n : Nat => n) 20, 0) ∧
      ∀ k ∈ ([] : List Nat), (alookup st.data k).isSome) :=
  ⟨(claim3_capacity_invariant Nat Nat).1 1 [] (Segment.new Nat Nat 1) (by decide) rfl,
    (claim3_capacity_invariant Nat Nat).2 1 (fun n : Nat => n) 10 [] 20 (by decide) (by decide)⟩

/-- C4 (counterexample): capacity 3, populate 1,2,3, remove 1, populate 4,
remove 2, populate 5, remove 5, populate 5 again: afterwards key 5 is
resident (at slot 2) while the evictor's slot-to-key mapping holds key 5 at
both slot 1 and slot 2 — the bookkeeping is not one-to-one after a
remove-then-repopulate. -/
theorem claim4_counterexample :
    runOps (Segment.new Nat Nat 3)
      [CacheOp.get 1 pf, CacheOp.get 2 pf, CacheOp.get 3 pf,
       CacheOp.update 1 delFn, CacheOp.get 4 pf,
       CacheOp.update 2 delFn, CacheOp.get 5 pf,
       CacheOp.update 5 delFn, CacheOp.get 5 pf] = some c4seg ∧
    alookup c4seg.data 5 = some (5, 2) ∧
    alookup c4seg.evictor.mapping 1 = some 5 ∧
    alookup c4seg.evictor.mapping 2 = some 5 ∧
    (1 : Nat) ≠ 2 := by
  decide

/-- C4 (amended): what does stay one-to-one is the resident side: after every
run each resident entry's slot is mapped back to that entry's key by the
evictor, and distinct resident keys occupy distinct slots; the evictor's
slot-to-key mapping itself may additionally hold stale duplicates of a
resident key at slots whose entry was removed. -/
theorem claim4_amended (K V : Type) [DecidableEq K] :
    ∀ (C : Nat) (ops : List (CacheOp K V)) (st : Segment K V),
      runOps (Segment.new K V C) ops = some st →
      (∀ p ∈ st.data, alookup st.evictor.mapping p.2.2 = some p.1) ∧
      (∀ p ∈ st.data, ∀ q ∈ st.data, p.2.2 = q.2.2 → p = q) := by
  intro C ops st hrun
  obtain ⟨⟨hEv, hnd, hmap⟩, _⟩ := SegInv_runOps (SegInv_new K V C) hrun
  refine ⟨fun p hp => (hmap p hp).2, ?_⟩
  intro p hp q hq hpq
  have h1 := (hmap p hp).2
  have h2 := (hmap q hq).2
  rw [hpq, h2] at h1
  injection h1 with h3
  exact eq_of_mem_eq_key hnd hp hq h3.symm

/-- C4 (witness): the amended property at a concrete one-element run. -/
theorem claim4_witness :
    (∀ p ∈ c4w.data, alookup c4w.evictor.mapping p.2.2 = some p.1) ∧
    (∀ p ∈ c4w.data, ∀ q ∈ c4w.data, p.2.2 = q.2.2 → p = q) :=
  claim4_amended Nat Nat 1 [CacheOp.get 7 pf] c4w rfl

/-- C5 (counterexample): capacity 2, populate 1 and 2, remove 2 via an update
returning nothing — one resident, below capacity — then populate 3: the
insertion runs victim selection anyway and evicts the resident key 1. -/
theorem claim5_counterexample :
    runOps (Segment.new Nat Nat 2)
      [CacheOp.get 1 pf, CacheOp.get 2 pf, CacheOp.update 2 delFn] = some c5a ∧
    c5a.data.length = 1 ∧
    c5a.data.length < c5a.evictor.capacity ∧
    alookup c5a.data 1 = some (1, 0) ∧
    runOps c5a [CacheOp.get 3 pf] = some c5b ∧
    alookup c5b.data 1 = none ∧
    alookup c5b.data 3 = some (3, 0) := by
  decide

/-- C5 (amended): removal does not return the slot to the evictor.  Once
`capacity` insertions have happened, a later insertion below the resident
capacity still runs victim selection: it evicts a resident key when the scan
selects an occupied slot (removing key 2 and populating 3 evicts resident 1),
and reclaims the removed key's slot without evicting a resident only when the
scan happens to select that stale slot (removing key 1 and populating 3
leaves both 2 and 3 resident). -/
theorem claim5_amended :
    (runOps (Segment.new Nat Nat 2)
      [CacheOp.get 1 pf, CacheOp.get 2 pf, CacheOp.update 2 delFn,
       CacheOp.get 3 pf] = some c5b ∧
     alookup c5b.data 1 = none ∧ alookup c5b.data 2 = none ∧
     alookup c5b.data 3 = some (3, 0)) ∧
    (runOps (Segment.new Nat Nat 2)
      [CacheOp.get 1 pf, CacheOp.get 2 pf, CacheOp.update 1 delFn,
       CacheOp.get 3 pf] = some c5c ∧
     alookup c5c.data 2 = some (2, 1) ∧
     alookup c5c.data 3 = some (3, 0) ∧
     c5c.data.length = 2) := by
  decide

/-- C7 (counterexample): capacity 2, populate 1 and 2, remove 1, then call
`get_or_populate` for key 1 again: the populating function's value is
returned, but the evictor reports key 1 itself as the victim (its stale slot
0), so the entry inserted for key 1 is removed immediately — no slot is
gained and a following lookup of key 1 misses. -/
theorem claim7_counterexample :
    runOps (Segment.new Nat Nat 2)
      [CacheOp.get 1 pf, CacheOp.get 2 pf, CacheOp.update 1 delFn] = some c7a ∧
    Segment.get_or_populate c7a 1 pf = some (some 1, c7b) ∧
    alookup c7b.data 1 = none ∧
    c7b.data.length = 1 := by
  decide

/-- C7 (amended): `get_or_populate` behaves as claimed except for the order
of insert and victim removal: a hit touches the slot and returns the stored
value without consulting the populating function; a miss whose function
returns nothing changes no state; a miss whose function returns a value
allocates a slot and returns the value, and the new entry survives exactly
when the evictor's reported victim is not the inserted key itself (the victim
key is removed from the map after the insert). -/
theorem claim7_amended {K V : Type} [DecidableEq K] (s : Segment K V) (key : K)
    (f g : K → Option V) (v : V) (idx : Nat) (hInv : SegInv s) :
    (alookup s.data key = some (v, idx) →
      ∃ ev, s.evictor.touch idx = some ev ∧
        Segment.get_or_populate s key g = some (some v, { s with evictor := ev })) ∧
    (alookup s.data key = none → f key = none →
      Segment.get_or_populate s key f = some (none, s)) ∧
    (alookup s.data key = none → f key = some v → 1 ≤ s.evictor.capacity →
      ∃ idx2 e2, s.evictor.add key = some ((idx2, alookup s.evictor.mapping idx2), e2) ∧
        Segment.get_or_populate s key f = some (some v, Segment.mk
          (insertThenEvict s.data key v idx2 (alookup s.evictor.mapping idx2)) e2) ∧
        (alookup s.evictor.mapping idx2 ≠ some key →
          alookup (insertThenEvict s.data key v idx2
            (alookup s.evictor.mapping idx2)) key = some (v, idx2)) ∧
        (alookup s.evictor.mapping idx2 = some key →
          alookup (insertThenEvict s.data key v idx2
            (alookup s.evictor.mapping idx2)) key = none)) := by
  obtain ⟨hEv, hnd, hmap⟩ := hInv
  refine ⟨?_, ?_, ?_⟩
  · intro hl
    have hidx := (hmap _ (mem_of_alookup_eq_some hl)).1
    have ht := touch_of_lt s.evictor idx (by rw [hEv.1]; exact hidx)
    refine ⟨_, ht, ?_⟩
    unfold Segment.get_or_populate
    rw [hl]
    show (match s.evictor.touch idx with
      | none => none
      | some ev => some (some v, { s with evictor := ev })) = _
    rw [ht]
  · intro hl hf
    unfold Segment.get_or_populate
    rw [hl, hf]
  · intro hl hf hcap
    obtain ⟨idx2, e2, heq, _, _, _, _, _⟩ := add_spec s.evictor key ⟨hEv.1, hEv.2.1,
      hEv.2.2.1, hEv.2.2.2.1, hEv.2.2.2.2⟩ hcap
    refine ⟨idx2, e2, heq, ?_, ?_, ?_⟩
    · unfold Segment.get_or_populate
      rw [hl, hf, heq]
    · intro hne
      unfold insertThenEvict
      rcases hvic : alookup s.evictor.mapping idx2 with _ | kev
      · exact alookup_ainsert_self _ _ _
      · have hkne : key ≠ kev := by
          intro hc
          rw [hvic, hc] at hne
          exact hne rfl
        rw [alookup_aerase_ne _ _ _ hkne]
        exact alookup_ainsert_self _ _ _
    · intro hvk
      rw [hvk]
      unfold insertThenEvict
      exact alookup_aerase_self _ (akeys_nodup_ainsert _ _ hnd)

/-- C7 (witness): the characterization instantiated at the concrete state
`c7a` (key 1 absent but still occupying slot 0 in the evictor's mapping). -/
theorem claim7_witness :
    (alookup c7a.data 1 = some (1, 0) →
      ∃ ev, c7a.evictor.touch 0 = some ev ∧
        Segment.get_or_populate c7a 1 pf = some (some 1, { c7a with evictor := ev })) ∧
    (alookup c7a.data 1 = none → pf 1 = none →
      Segment.get_or_populate c7a 1 pf = some (none, c7a)) ∧
    (alookup c7a.data 1 = none → pf 1 = some 1 → 1 ≤ c7a.evictor.capacity →
      ∃ idx2 e2, c7a.evictor.add 1 = some ((idx2, alookup c7a.evictor.mapping idx2), e2) ∧
        Segment.get_or_populate c7a 1 pf = some (some 1, Segment.mk
          (insertThenEvict c7a.data 1 1 idx2 (alookup c7a.evictor.mapping idx2)) e2) ∧
        (alookup c7a.evictor.mapping idx2 ≠ some 1 →
          alookup (insertThenEvict c7a.data 1 1 idx2
            (alookup c7a.evictor.mapping idx2)) 1 = some (1, idx2)) ∧
        (alookup c7a.evictor.mapping idx2 = some 1 →
          alookup (insertThenEvict c7a.data 1 1 idx2
            (alookup c7a.evictor.mapping idx2)) 1 = none)) :=
  claim7_amended c7a 1 pf pf 1 0 (by decide)

/-- C8: the `update` contract: with the key present and the function
returning a value, the value is overwritten in place at the existing slot,
the slot is touched, and the new value is returned; with the key absent and
the function returning a value, the call behaves exactly as a population
with that value; with the key absent and the function returning nothing,
nothing changes and nothing is returned. -/
theorem claim8_update_contract {K V : Type} [DecidableEq K] (s : Segment K V) (key : K)
    (f : K → Option V → Option V) (v v2 : V) (idx : Nat) (hInv : SegInv s) :
    (alookup s.data key = some (v, idx) → f key (some v) = some v2 →
      ∃ ev, s.evictor.touch idx = some ev ∧
        Segment.update s key f = some (some v2,
          Segment.mk (ainsert s.data key (v2, idx)) ev)) ∧
    (alookup s.data key = none → f key none = some v2 →
      Segment.update s key f = Segment.get_or_populate s key (fun _ => some v2)) ∧
    (alookup s.data key = none → f key none = none →
      Segment.update s key f = some (none, s)) := by
  obtain ⟨hEv, hnd, hmap⟩ := hInv
  refine ⟨?_, ?_, ?_⟩
  · intro hl hf
    have hidx := (hmap _ (mem_of_alookup_eq_some hl)).1
    have ht := touch_of_lt s.evictor idx (by rw [hEv.1]; exact hidx)
    refine ⟨_, ht, ?_⟩
    unfold Segment.update
    rw [hl]
    show (match f key (some v) with
      | some value =>
        match s.evictor.touch idx with
        | none => none
        | some ev =>
          some (some value, Segment.mk (ainsert s.data key (value, idx)) ev)
      | none => some (none, { s with data := aerase s.data key })) = _
    rw [hf]
    show (match s.evictor.touch idx with
      | none => none
      | some ev =>
        some (some v2, Segment.mk (ainsert s.data key (v2, idx)) ev)) = _
    rw [ht]
  · intro hl hf
    unfold Segment.update Segment.get_or_populate
    rw [hl, hf]
  · intro hl hf
    unfold Segment.update
    rw [hl, hf]

/-- C8 (witness): the contract at the concrete one-entry segment `c8seg`. -/
theorem claim8_witness :
    (alookup c8seg.data 1 = some (1, 0) →
      (fun (_ : Nat) (_ : Option Nat) => some 9) 1 (some 1) = some 9 →
      ∃ ev, c8seg.evictor.touch 0 = some ev ∧
        Segment.update c8seg 1 (fun _ _ => some 9) = some (some 9,
          Segment.mk (ainsert c8seg.data 1 (9, 0)) ev)) ∧
    (alookup c8seg.data 1 = none →
      (fun (_ : Nat) (_ : Option Nat) => some 9) 1 none = some 9 →
      Segment.update c8seg 1 (fun _ _ => some 9) =
        Segment.get_or_populate c8seg 1 (fun _ => some 9)) ∧
    (alookup c8seg.data 1 = none →
      (fun (_ : Nat) (_ : Option Nat) => some 9) 1 none = none →
      Segment.update c8seg 1 (fun _ _ => some 9) = some (none, c8seg)) :=
  claim8_update_contract c8seg 1 (fun _ _ => some 9) 1 9 0 (by decide)

end Cachers
